import Mathlib

/-!
Shallow embedding of the clack editor core (j6k4m8/clack, Rust) for checking
its natural-language specification.

Modelling conventions:
* Rust `String` text is modelled as `List Char`.  Grapheme clusters are
  modelled as single characters: one `Char` = one grapheme cluster = one byte.
  Under this abstraction the byte offset of a position equals its grapheme
  index, which is what `unicode_segmentation` guarantees for the texts the
  editor's indices address (the byte-to-grapheme conversion loop of
  `Row::find` is still embedded structurally).
* Fallible/panicking Rust code is modelled with `Option` (`none` = panic).
* The audio side is modelled as a state machine over an abstract element
  type with an explicit event trace (process kills, playbacks), since the
  real playback is I/O.
-/

namespace Clack

/-- Models Rust `str::find` (first match): `strFindAux q s i` returns the
first index `≥ i` (counting from the head of `s` at offset `i`) at which
`q` occurs as a contiguous sublist of `s`. -/
def strFindAux (q : List Char) : List Char → Nat → Option Nat
  | [], i => if q = [] then some i else none
  | c :: rest, i =>
    if q.isPrefixOf (c :: rest) then some i else strFindAux q rest (i + 1)

/-- Models Rust `String::find(query)`: byte index of the first occurrence of
`query` in `s`, if any. -/
def strFind (s q : List Char) : Option Nat :=
  strFindAux q s 0

/-- Models Rust `str::rfind`-style search: last index at which `q` occurs in
`s`, threading the best match found so far. -/
def strFindLastAux (q : List Char) : List Char → Nat → Option Nat → Option Nat
  | [], i, acc => if q = [] then some i else acc
  | c :: rest, i, acc =>
    strFindLastAux q rest (i + 1) (if q.isPrefixOf (c :: rest) then some i else acc)

/-- Last occurrence of `q` in `s`, if any. -/
def strFindLast (s q : List Char) : Option Nat :=
  strFindLastAux q s 0 none

/-- Does `pat` occur as a contiguous substring of `s`?  (`true` for the empty
pattern, as in Rust `str::contains`.) -/
def hasSubstr (pat : List Char) : List Char → Bool
  | [] => pat = []
  | c :: rest => pat.isPrefixOf (c :: rest) || hasSubstr pat rest

/-- Models Rust `String::replace(pat, rep)` for a nonempty pattern: scan left
to right, replacing each non-overlapping occurrence of `pat` with `rep`.
(For the empty pattern this model returns the input unchanged; every literal
in the tokenizer's rule table is nonempty, so that case is never exercised.) -/
def listReplace (pat rep : List Char) : List Char → List Char
  | [] => []
  | c :: rest =>
    if h : pat ≠ [] ∧ pat.isPrefixOf (c :: rest) then
      rep ++ listReplace pat rep ((c :: rest).drop pat.length)
    else
      c :: listReplace pat rep rest
termination_by s => s.length
decreasing_by
  · simp only [List.length_drop, List.length_cons]
    have hpat : 0 < pat.length := List.length_pos.mpr h.1
    omega
  · simp

/-- Models `utils.rs` `SearchDirection`. -/
inductive SearchDirection where
  | Forward
  | Backward
deriving Repr, DecidableEq

/-- Models `row.rs` `Row`: the stored text plus the cached grapheme-cluster
count `len`. -/
structure Row where
  string : List Char
  len : Nat
deriving Repr, DecidableEq

/-- Models `Row::default()` (derived `Default`): empty string, zero length. -/
def Row.default : Row :=
  ⟨[], 0⟩

/-- Models `From<&str> for Row`: store the slice and `update_len` (recompute
the grapheme count, which in this model is the list length). -/
def Row.fromStr (s : List Char) : Row :=
  ⟨s, s.length⟩

/-- Models `Row::len()` (the cached length). -/
def Row.length (r : Row) : Nat :=
  r.len

/-- The loop body of `Row::insert`: walk the graphemes with their indices,
pushing `c` just before the grapheme at index `idx` and counting the emitted
graphemes (`length += 1` per grapheme, plus one extra when `c` is pushed).
Returns (rebuilt string, counted length). -/
def insertAux (c : Char) (idx : Nat) : List Char → Nat → List Char × Nat
  | [], _ => ([], 0)
  | g :: rest, i =>
    let (tail, n) := insertAux c idx rest (i + 1)
    if i = idx then (c :: g :: tail, n + 2) else (g :: tail, n + 1)

/-- Models `Row::insert(at, c)`: if `at ≥ len` push `c` at the end and bump
the cached length, else rebuild the row grapheme-by-grapheme inserting `c`
before index `at`. -/
def Row.insert (r : Row) (idx : Nat) (c : Char) : Row :=
  if idx ≥ r.len then
    ⟨r.string ++ [c], r.len + 1⟩
  else
    let (res, n) := insertAux c idx r.string 0
    ⟨res, n⟩

/-- The loop body of `Row::delete`: walk the graphemes with their indices,
skipping the one at index `idx` and counting the kept graphemes. -/
def deleteAux (idx : Nat) : List Char → Nat → List Char × Nat
  | [], _ => ([], 0)
  | g :: rest, i =>
    let (tail, n) := deleteAux idx rest (i + 1)
    if i = idx then (tail, n) else (g :: tail, n + 1)

/-- Models `Row::delete(at)`: no-op when `at ≥ len`, else rebuild the row
without the grapheme at index `at`. -/
def Row.delete (r : Row) (idx : Nat) : Row :=
  if idx ≥ r.len then r
  else
    let (res, n) := deleteAux idx r.string 0
    ⟨res, n⟩

/-- Models `Row::append(new)`: concatenate the strings and `update_len`. -/
def Row.append (r other : Row) : Row :=
  ⟨r.string ++ other.string, (r.string ++ other.string).length⟩

/-- The loop body of `Row::split`: graphemes with index `< idx` go to the
head row, the rest to the tail row, each with its counted length. -/
def splitAux (idx : Nat) : List Char → Nat → (List Char × Nat) × (List Char × Nat)
  | [], _ => (([], 0), ([], 0))
  | g :: rest, i =>
    let ((hd, hn), (tl, tn)) := splitAux idx rest (i + 1)
    if i < idx then ((g :: hd, hn + 1), (tl, tn)) else ((hd, hn), (g :: tl, tn + 1))

/-- Models `Row::split(at)`: returns (the mutated `self`, the returned tail
row). -/
def Row.split (r : Row) (idx : Nat) : Row × Row :=
  let ((hd, hn), (tl, tn)) := splitAux idx r.string 0
  (⟨hd, hn⟩, ⟨tl, tn⟩)

/-- Models the byte-to-grapheme conversion loop of `Row::find`: iterate over
`grapheme_indices` and return the grapheme index whose byte index equals `b`.
In this model each grapheme is one byte wide, so the byte index of grapheme
`i` is `i` itself; the loop structure is kept. -/
def graphemeIndexOfByte (s : List Char) (b : Nat) : Option Nat :=
  (List.range s.length).find? (fun gi => gi = b)

/-- Models `Row::find(query)`: byte-level substring search, then conversion
of the matching byte offset to a grapheme-cluster index. -/
def Row.find (r : Row) (query : List Char) : Option Nat :=
  match strFind r.string query with
  | some b => graphemeIndexOfByte r.string b
  | none => none

/-- Models `editor.rs` `Position`: `x` is the column, `y` the row, both in
grapheme-cluster units. -/
structure Position where
  x : Nat
  y : Nat
deriving Repr, DecidableEq

/-- Models `document.rs` `Document`: the rows, the optional file name, and
the dirty flag. -/
structure Document where
  rows : List Row
  file_name : Option (List Char)
  dirty : Bool
deriving Repr, DecidableEq

/-- Models `Document::row_count()`. -/
def Document.row_count (d : Document) : Nat :=
  d.rows.length

/-- Models `Document::get_row(index)`. -/
def Document.get_row (d : Document) (index : Nat) : Option Row :=
  d.rows.get? index

/-- Models `Vec::insert(index, element)` on a list: shift the elements at
`index` and after one place right.  (Rust panics when `index > len`; the one
call site, `insert_newline`, always has `index ≤ len`, and the model appends
in the out-of-range case.) -/
def listInsertAt {α : Type} : List α → Nat → α → List α
  | l, 0, a => a :: l
  | [], _ + 1, a => [a]
  | x :: xs, n + 1, a => x :: listInsertAt xs n a

/-- Models `Document::insert_newline(at)`: past-the-end is a no-op, at the
end appends a default row, otherwise splits the row at `at.x` and inserts
the tail row right after it. -/
def Document.insert_newline (d : Document) (p : Position) : Document :=
  if p.y > d.rows.length then d
  else if p.y = d.row_count then { d with rows := d.rows ++ [Row.default] }
  else
    let r := (d.rows.get? p.y).getD Row.default
    let (head, tail) := r.split p.x
    { d with rows := listInsertAt (d.rows.set p.y head) (p.y + 1) tail }

/-- Models `Document::insert(at, c)`: a row index past `row_count` is a
no-op; otherwise the document is marked dirty, a newline character is routed
to `insert_newline`, a row index equal to `row_count` appends a fresh row
holding only `c` (the column is overridden to 0), and otherwise `c` is
inserted into the addressed row at `at.x`. -/
def Document.insert (d : Document) (p : Position) (c : Char) : Document :=
  if p.y > d.row_count then d
  else
    let d' := { d with dirty := true }
    if c = '\n' then d'.insert_newline p
    else if p.y = d'.row_count then
      { d' with rows := d'.rows ++ [Row.insert Row.default 0 c] }
    else
      { d' with rows := d'.rows.set p.y (((d'.rows.get? p.y).getD Row.default).insert p.x c) }

/-- Models `Document::delete(at)`: a row index out of range is a no-op;
otherwise the document is marked dirty, and either the next row is merged
onto the current one (when `at.x` equals the row length and a next row
exists) or the grapheme at `at.x` is deleted from the row. -/
def Document.delete (d : Document) (p : Position) : Document :=
  let len := d.rows.length
  if p.y ≥ len then d
  else
    let d' := { d with dirty := true }
    let row := (d'.rows.get? p.y).getD Row.default
    if p.x = row.len ∧ p.y + 1 < len then
      let next_row := (d'.rows.get? (p.y + 1)).getD Row.default
      { d' with rows := ((d'.rows.eraseIdx (p.y + 1)).set p.y (row.append next_row)) }
    else
      { d' with rows := d'.rows.set p.y (row.delete p.x) }

/-- Models the successful path of `Document::save()`: when a file name is
present the rows are written out and the dirty flag is cleared; without a
file name nothing happens (and `Ok(())` is still returned). -/
def Document.save (d : Document) : Document :=
  match d.file_name with
  | some _ => { d with dirty := false }
  | none => d

/-- Models `Document::is_dirty()`. -/
def Document.is_dirty (d : Document) : Bool :=
  d.dirty

/-- The loop of `Document::find(query)` as present in `document.rs`: scan all
rows from the first, returning the first row-level match. -/
def findRowsAux (query : List Char) : List Row → Nat → Option Position
  | [], _ => none
  | r :: rest, y =>
    match r.find query with
    | some x => some ⟨x, y⟩
    | none => findRowsAux query rest (y + 1)

/-- Models `Document::find(query)` (the one-argument version in
`src/document.rs`): first match scanning rows from the top. -/
def Document.find (d : Document) (query : List Char) : Option Position :=
  findRowsAux query d.rows 0

/-- Modelled from the spec: the three-argument `Document::find(query, from,
direction)` called at `editor.rs:340` is not present under `src/`
(`document.rs` only has the one-argument scan above), so the row-level search
with a column constraint is taken from the spec's words: forward search
looks for the first occurrence at or after the column, backward search for
the last occurrence lying within the first `col` graphemes. -/
def Row.findDir (r : Row) (query : List Char) (col : Nat) (dir : SearchDirection) : Option Nat :=
  match dir with
  | .Forward => (strFind (r.string.drop col) query).map (· + col)
  | .Backward => strFindLast (r.string.take col) query

/-- Modelled from the spec: the forward leg of the three-argument find —
linear scan over the rows from index `y` on, the first row constrained to
columns `≥ col`, later rows searched from column 0. -/
def findForwardAux (query : List Char) : List Row → Nat → Nat → Option Position
  | [], _, _ => none
  | r :: rest, y, col =>
    match r.findDir query col .Forward with
    | some x => some ⟨x, y⟩
    | none => findForwardAux query rest (y + 1) 0

/-- Modelled from the spec: the backward leg of the three-argument find —
linear scan over rows `y, y-1, …, 0`, the first row constrained to matches
inside its first `col` graphemes, earlier rows searched in full. -/
def findBackwardAux (rows : List Row) (query : List Char) : Nat → Nat → Option Position
  | y, col =>
    match rows.get? y with
    | none => none
    | some r =>
      match r.findDir query col .Backward with
      | some x => some ⟨x, y⟩
      | none =>
        match y with
        | 0 => none
        | y' + 1 => findBackwardAux rows query y' ((rows.get? y').getD Row.default).len

/-- Modelled from the spec: `Document::find(query, from, direction)` —
linear scan over rows starting at `from` in the requested direction,
wrapping across row boundaries, first Position whose row contains the query
at or after the column constraint, else none. -/
def Document.findDir (d : Document) (query : List Char) (p : Position)
    (dir : SearchDirection) : Option Position :=
  if p.y ≥ d.rows.length then none
  else
    match dir with
    | .Forward => findForwardAux query (d.rows.drop p.y) p.y p.x
    | .Backward => findBackwardAux d.rows query p.y p.x

/-- Helper for the word segmentation: the maximal alphanumeric run at the
head of the list, and the remainder. -/
def takeRun : List Char → List Char × List Char
  | [] => ([], [])
  | c :: rest =>
    if c.isAlphanum then
      let (run, rest') := takeRun rest
      (c :: run, rest')
    else ([], c :: rest)

theorem takeRun_snd_length_le : ∀ l : List Char, (takeRun l).2.length ≤ l.length := by
  intro l
  induction l with
  | nil => simp [takeRun]
  | cons c rest ih =>
    simp only [takeRun]
    by_cases h : c.isAlphanum
    · simp only [h, if_pos]
      exact Nat.le_succ_of_le ih
    · simp [h]

/-- Models `unicode_segmentation`'s `split_word_bounds` (UAX#29), abstracted
to an executable approximation sufficient for the claims: maximal runs of
alphanumeric characters form one token each, and every other character is a
singleton token.  All that the word-lookup property depends on is that the
segments are nonempty, consecutive and cover the string, which holds of the
real segmentation as well. -/
def tokenize : List Char → List (List Char)
  | [] => []
  | c :: rest =>
    if c.isAlphanum then
      (c :: (takeRun rest).1) :: tokenize (takeRun rest).2
    else
      [c] :: tokenize rest
termination_by s => s.length
decreasing_by
  · have := takeRun_snd_length_le rest
    simp only [List.length_cons]
    omega
  · simp

/-- Pair each token with its starting index, the first at `k`. -/
def withIndices (k : Nat) : List (List Char) → List (Nat × List Char)
  | [] => []
  | t :: ts => (k, t) :: withIndices (k + t.length) ts

/-- Models `Row::get_tokens_and_indices()`: `split_word_bound_indices`
collected into a list of (start index, token) pairs (byte index = grapheme
index in this model). -/
def Row.get_tokens_and_indices (r : Row) : List (Nat × List Char) :=
  withIndices 0 (tokenize r.string)

/-- The loop of `Row::get_word_at`: the first (start, token) pair with
`start + token.len() > at` yields its token. -/
def findTok (i : Nat) : List (Nat × List Char) → Option (List Char)
  | [] => none
  | (start, tok) :: rest =>
    if start + tok.length > i then some tok else findTok i rest

/-- Models `Row::get_word_at(at)`. -/
def Row.get_word_at (r : Row) (i : Nat) : Option (List Char) :=
  findTok i r.get_tokens_and_indices

/-- An observable action of the sound engine: a termination request sent to
a backing process (identified by a pid), or an Audible played to
completion. -/
inductive SoundEvent (α : Type) where
  | killed (pid : Nat)
  | played (a : α)
deriving Repr, DecidableEq

/-- Models `sound.rs` `SoundManager`.  The queued `Box<dyn Audible>` trait
objects are opaque to the manager, so the element type is a parameter; the
`Child` process handle is modelled by its pid.  (`current_sound_start` is a
timestamp never read by any queue operation and is omitted.) -/
structure SoundManager (α : Type) where
  queue : List α
  current_sound : Option α
  current_child_process : Option Nat
deriving Repr, DecidableEq

/-- Models `SoundManager::new()`. -/
def SoundManager.new (α : Type) : SoundManager α :=
  ⟨[], none, none⟩

/-- Models `SoundManager::play_next(sound)`: push to the front of the
queue. -/
def SoundManager.play_next {α : Type} (m : SoundManager α) (sound : α) : SoundManager α :=
  { m with queue := sound :: m.queue }

/-- Models `SoundManager::play(sound)`: push to the back of the queue. -/
def SoundManager.play {α : Type} (m : SoundManager α) (sound : α) : SoundManager α :=
  { m with queue := m.queue ++ [sound] }

/-- Models `SoundManager::clear()`: discard the queue. -/
def SoundManager.clear {α : Type} (m : SoundManager α) : SoundManager α :=
  { m with queue := [] }

/-- Models `SoundManager::kill()`: send a termination request to the current
child process when there is one, then clear the current-sound and
current-child slots. -/
def SoundManager.kill {α : Type} (m : SoundManager α) :
    List (SoundEvent α) × SoundManager α :=
  ((match m.current_child_process with
    | some pid => [SoundEvent.killed pid]
    | none => []),
   { m with current_sound := none, current_child_process := none })

/-- Models `SoundManager::interrupt_and_play(sound)`: `kill()` then
`play_next(sound)`. -/
def SoundManager.interrupt_and_play {α : Type} (m : SoundManager α) (sound : α) :
    List (SoundEvent α) × SoundManager α :=
  let (ev, m') := m.kill
  (ev, m'.play_next sound)

/-- Models `SoundManager::clear_and_play(sound)`: `clear()` then
`play_next(sound)`. -/
def SoundManager.clear_and_play {α : Type} (m : SoundManager α) (sound : α) : SoundManager α :=
  (m.clear).play_next sound

/-- Models `SoundManager::speak_next_or_wait()` (the drain): pop from the
front and `play_and_wait` each item until the queue is empty, then clear the
current-sound and current-child slots.  The played items appear in the event
trace in pop order. -/
def SoundManager.speak_next_or_wait {α : Type} (m : SoundManager α) :
    List (SoundEvent α) × SoundManager α :=
  (m.queue.map SoundEvent.played,
   { m with queue := [], current_sound := none, current_child_process := none })

/-- Models `SoundManager::play_and_wait(sound)`: play the sound to
completion without touching the queue or the current slots. -/
def SoundManager.play_and_wait {α : Type} (m : SoundManager α) (sound : α) :
    List (SoundEvent α) × SoundManager α :=
  ([SoundEvent.played sound], m)

/-- Models the `toml::Value` shapes relevant to the configuration code. -/
inductive TomlValue where
  | integer (n : Int)
  | str (s : List Char)
  | boolean (b : Bool)
  | table (entries : List (List Char × TomlValue))

/-- Models `toml::Value::get(key)`: a key lookup on a table, `None` on any
other value shape. -/
def TomlValue.get (v : TomlValue) (key : List Char) : Option TomlValue :=
  match v with
  | .table entries => (entries.find? (fun e => decide (e.1 = key))).map (fun e => e.2)
  | _ => none

/-- Models `toml::Value::as_integer()`. -/
def TomlValue.as_integer : TomlValue → Option Int
  | .integer n => some n
  | _ => none

/-- Models `config.rs` `DEFAULT_RATE_WPM`. -/
def DEFAULT_RATE_WPM : Int := 300

/-- Models `ConfigManager::get_rate_wpm()`:
`self.get("rate_wpm").unwrap_or(&Value::Integer(DEFAULT_RATE_WPM)).as_integer().unwrap()`.
The result is `none` exactly when the final `unwrap()` panics. -/
def get_rate_wpm (config : TomlValue) : Option Int :=
  ((config.get ("rate_wpm".toList)).getD (TomlValue.integer DEFAULT_RATE_WPM)).as_integer

/-- Models the `replace_map` rule table of `utils.rs`
`string_to_speakable_tokens`, in source order. -/
def replaceMap : List (List Char × List Char) := [
  ("===".toList, "triple equals".toList),
  ("```".toList, "triple backtick".toList),
  ("<=".toList, "less than or equal to".toList),
  (">=".toList, "greater than or equal to".toList),
  ("<>".toList, "not equal to".toList),
  ("<<".toList, "left shift".toList),
  (">>".toList, "right shift".toList),
  ("__".toList, "dunder".toList),
  ("==".toList, "double equals".toList),
  ("++".toList, "plus plus".toList),
  ("--".toList, "minus minus".toList),
  ("+=".toList, "plus equals".toList),
  ("-=".toList, "minus equals".toList),
  ("[".toList, "square bracket".toList),
  ("]".toList, "close bracket".toList),
  ("(".toList, "open paren".toList),
  (")".toList, "close paren".toList),
  ("\x7b".toList, "open curly brace".toList),
  ("\x7d".toList, "close curly brace".toList),
  ("<".toList, "open angle bracket".toList),
  (">".toList, "close angle bracket".toList),
  (".".toList, "dot".toList),
  ("&".toList, "ref".toList),
  ("!".toList, "bang".toList),
  ("#".toList, "hash".toList),
  ("$".toList, "dollarsign".toList),
  ("%".toList, "percent".toList),
  ("^".toList, "caret".toList),
  ("*".toList, "asterisk".toList),
  ("+".toList, "plus".toList),
  ("-".toList, "minus".toList),
  ("=".toList, "equals".toList),
  ("\\".toList, "backslash".toList),
  ("|".toList, "pipe".toList),
  ("/".toList, "slash".toList),
  ("`".toList, "backtick".toList),
  ("\x27".toList, "single-quote".toList),
  (",".toList, "comma".toList),
  (";".toList, "semicolon".toList),
  (":".toList, "colon".toList),
  ("\"".toList, "double-quote".toList),
  ("?".toList, "question-mark".toList),
  ("_".toList, "underscore".toList),
  ("~".toList, "tilde".toList),
  ("@".toList, "at-sign".toList),
  ("€".toList, "euro".toList),
  ("£".toList, "pound".toList),
  ("¥".toList, "yen".toList)]

/-- Models `utils.rs` `string_to_speakable_tokens(text, _)`: apply each
substitution rule in table order to the output of the previous one,
replacing every occurrence of the literal with the phrase padded by a space
on each side (`format!(" \x7b\x7d ", replacement)`). -/
def string_to_speakable_tokens (text : List Char) : List Char :=
  replaceMap.foldl (fun acc pr => listReplace pr.1 (' ' :: (pr.2 ++ [' '])) acc) text

/-! ### Helper lemmas about the Row rebuild loops -/

theorem insertAux_snd (c : Char) (idx : Nat) :
    ∀ (l : List Char) (k : Nat), (insertAux c idx l k).2 = (insertAux c idx l k).1.length := by
  intro l
  induction l with
  | nil => intro k; simp [insertAux]
  | cons g rest ih =>
    intro k
    rcases h : insertAux c idx rest (k + 1) with ⟨tail, n⟩
    have ih' := ih (k + 1)
    rw [h] at ih'
    by_cases hk : k = idx
    · simp only [insertAux, h, hk, if_pos]
      simp_all
    · simp only [insertAux, h, if_neg hk]
      simp_all

theorem insertAux_gt (c : Char) (idx : Nat) :
    ∀ (l : List Char) (k : Nat), idx < k → insertAux c idx l k = (l, l.length) := by
  intro l
  induction l with
  | nil => intro k _; simp [insertAux]
  | cons g rest ih =>
    intro k hk
    have h := ih (k + 1) (Nat.lt_succ_of_lt hk)
    have hne : k ≠ idx := fun he => absurd (he ▸ hk) (lt_irrefl idx)
    simp only [insertAux, h, if_neg hne]
    simp [Nat.add_comm]

theorem deleteAux_gt (idx : Nat) :
    ∀ (l : List Char) (k : Nat), idx < k → deleteAux idx l k = (l, l.length) := by
  intro l
  induction l with
  | nil => intro k _; simp [deleteAux]
  | cons g rest ih =>
    intro k hk
    have h := ih (k + 1) (Nat.lt_succ_of_lt hk)
    have hne : k ≠ idx := fun he => absurd (he ▸ hk) (lt_irrefl idx)
    simp only [deleteAux, h, if_neg hne]
    simp [Nat.add_comm]

theorem deleteAux_snd (idx : Nat) :
    ∀ (l : List Char) (k : Nat), (deleteAux idx l k).2 = (deleteAux idx l k).1.length := by
  intro l
  induction l with
  | nil => intro k; simp [deleteAux]
  | cons g rest ih =>
    intro k
    rcases h : deleteAux idx rest (k + 1) with ⟨tail, n⟩
    have ih' := ih (k + 1)
    rw [h] at ih'
    by_cases hk : k = idx
    · simp only [deleteAux, h, hk, if_pos]
      simp_all
    · simp only [deleteAux, h, if_neg hk]
      simp_all

theorem splitAux_snd (idx : Nat) :
    ∀ (l : List Char) (k : Nat),
      (splitAux idx l k).1.2 = (splitAux idx l k).1.1.length ∧
      (splitAux idx l k).2.2 = (splitAux idx l k).2.1.length := by
  intro l
  induction l with
  | nil => intro k; simp [splitAux]
  | cons g rest ih =>
    intro k
    rcases h : splitAux idx rest (k + 1) with ⟨⟨hd, hn⟩, ⟨tl, tn⟩⟩
    have ih' := ih (k + 1)
    rw [h] at ih'
    by_cases hk : k < idx
    · simp only [splitAux, h, if_pos hk]
      simp_all
    · simp only [splitAux, h, if_neg hk]
      simp_all

theorem splitAux_ge (idx : Nat) :
    ∀ (l : List Char) (k : Nat), idx ≤ k → splitAux idx l k = (([], 0), (l, l.length)) := by
  intro l
  induction l with
  | nil => intro k _; simp [splitAux]
  | cons g rest ih =>
    intro k hk
    have h := ih (k + 1) (Nat.le_succ_of_le hk)
    have hne : ¬ k < idx := Nat.not_lt.mpr hk
    simp only [splitAux, h, if_neg hne]
    simp [Nat.add_comm]

theorem splitAux_concat (idx : Nat) :
    ∀ (l : List Char) (k : Nat), (splitAux idx l k).1.1 ++ (splitAux idx l k).2.1 = l := by
  intro l
  induction l with
  | nil => intro k; simp [splitAux]
  | cons g rest ih =>
    intro k
    by_cases hk : k < idx
    · rcases h : splitAux idx rest (k + 1) with ⟨⟨hd, hn⟩, ⟨tl, tn⟩⟩
      have ih' := ih (k + 1)
      rw [h] at ih'
      simp only [splitAux, h, if_pos hk]
      simp_all
    · have h := splitAux_ge idx rest (k + 1) (Nat.le_succ_of_le (Nat.not_lt.mp hk))
      simp only [splitAux, h, if_neg hk]
      simp

theorem insert_delete_aux (c : Char) (idx : Nat) :
    ∀ (l : List Char) (k : Nat), k ≤ idx → idx < k + l.length →
      deleteAux idx (insertAux c idx l k).1 k = (l, l.length) := by
  intro l
  induction l with
  | nil => intro k hk h; simp at h; omega
  | cons g rest ih =>
    intro k hk hlt
    by_cases he : k = idx
    · have hins : insertAux c idx rest (k + 1) = (rest, rest.length) :=
        insertAux_gt c idx rest (k + 1) (by omega)
      have h2 := deleteAux_gt idx rest (k + 1 + 1) (by omega)
      simp only [insertAux, hins, if_pos he, deleteAux]
      rw [if_neg (show ¬ k + 1 = idx by omega), h2]
      simp
    · rcases hins : insertAux c idx rest (k + 1) with ⟨tail, n⟩
      have ih' := ih (k + 1) (by omega) (by simp at hlt; omega)
      rw [hins] at ih'
      simp only [insertAux, hins, if_neg he]
      simp only [deleteAux, ih', if_neg he]
      simp

theorem deleteAux_snoc (c : Char) :
    ∀ (l : List Char) (k : Nat), deleteAux (k + l.length) (l ++ [c]) k = (l, l.length) := by
  intro l
  induction l with
  | nil =>
    intro k
    simp only [List.nil_append, List.length_nil, Nat.add_zero]
    rcases h : deleteAux k [] (k + 1) with ⟨tail, n⟩
    simp [deleteAux] at h
    simp [deleteAux, h]
  | cons g rest ih =>
    intro k
    have ih' := ih (k + 1)
    have harith : k + (g :: rest).length = (k + 1) + rest.length := by simp; omega
    rw [harith]
    have hne : k ≠ k + 1 + rest.length := by omega
    simp only [List.cons_append, deleteAux, ih', if_neg hne]
    simp [ih']

theorem insertAux_fst_length (c : Char) (idx : Nat) :
    ∀ (l : List Char) (k : Nat), k ≤ idx → idx < k + l.length →
      (insertAux c idx l k).1.length = l.length + 1 := by
  intro l
  induction l with
  | nil => intro k hk h; simp at h; omega
  | cons g rest ih =>
    intro k hk hlt
    by_cases he : k = idx
    · have h0 := insertAux_gt c idx rest (k + 1) (by omega)
      simp only [insertAux, h0, if_pos he]
      simp
    · rcases hins : insertAux c idx rest (k + 1) with ⟨tail, n⟩
      have ih' := ih (k + 1) (by omega) (by simp at hlt; omega)
      rw [hins] at ih'
      simp only [insertAux, hins, if_neg he]
      simp at ih' ⊢
      omega

/-- The cached-length invariant of a `Row`: the cached count equals the true
grapheme-cluster count of the stored text. -/
def Row.lenInvariant (r : Row) : Prop :=
  r.len = r.string.length

instance (r : Row) : Decidable r.lenInvariant :=
  inferInstanceAs (Decidable (r.len = r.string.length))

/-- Claim C2: for every Row, the cached length field equals the true
grapheme-cluster count of the stored string, and this invariant is
established by Row construction and preserved by `insert`, `delete`, `split`
and `append`, for every character argument and every index. -/
theorem row_len_invariant_preserved (s : List Char) (r r' : Row) (idx : Nat) (c : Char)
    (h : r.lenInvariant) (h' : r'.lenInvariant) :
    (Row.fromStr s).lenInvariant ∧
    (r.insert idx c).lenInvariant ∧
    (r.delete idx).lenInvariant ∧
    ((r.split idx).1).lenInvariant ∧
    ((r.split idx).2).lenInvariant ∧
    (r.append r').lenInvariant := by
  refine ⟨rfl, ?_, ?_, ?_, ?_, ?_⟩
  · by_cases hc : idx ≥ r.len
    · simp only [Row.insert, if_pos hc, Row.lenInvariant] at h ⊢
      simp [h]
    · rcases hins : insertAux c idx r.string 0 with ⟨res, n⟩
      have hs := insertAux_snd c idx r.string 0
      rw [hins] at hs
      simp only [Row.insert, if_neg hc, hins, Row.lenInvariant]
      exact hs
  · by_cases hc : idx ≥ r.len
    · simp only [Row.delete, if_pos hc]
      exact h
    · rcases hdel : deleteAux idx r.string 0 with ⟨res, n⟩
      have hs := deleteAux_snd idx r.string 0
      rw [hdel] at hs
      simp only [Row.delete, if_neg hc, hdel, Row.lenInvariant]
      exact hs
  · rcases hsp : splitAux idx r.string 0 with ⟨⟨hd, hn⟩, ⟨tl, tn⟩⟩
    have hs := (splitAux_snd idx r.string 0).1
    rw [hsp] at hs
    simp only [Row.split, hsp, Row.lenInvariant]
    exact hs
  · rcases hsp : splitAux idx r.string 0 with ⟨⟨hd, hn⟩, ⟨tl, tn⟩⟩
    have hs := (splitAux_snd idx r.string 0).2
    rw [hsp] at hs
    simp only [Row.split, hsp, Row.lenInvariant]
    exact hs
  · simp [Row.append, Row.lenInvariant]

/-- Closed witness for C2 at a concrete row and index. -/
theorem row_len_invariant_preserved_witness :
    (Row.fromStr ['a', 'b']).lenInvariant ∧
    ((Row.fromStr ['a', 'b']).insert 1 'x').lenInvariant ∧
    ((Row.fromStr ['a', 'b']).delete 1).lenInvariant := by
  have h := row_len_invariant_preserved ['a', 'b'] (Row.fromStr ['a', 'b'])
    (Row.fromStr ['c']) 1 'x' (by decide) (by decide)
  exact ⟨h.1, h.2.1, h.2.2.1⟩

/-- Claim C5: for every string `s`, valid grapheme index `i ≤ len s`, and
non-line-break character `c`, `Row::insert` of `c` at `i` followed by
`Row::delete` at `i` restores a Row equal (string and cached length) to the
original. -/
theorem insert_delete_roundtrip (s : List Char) (i : Nat) (c : Char)
    (hc : c ≠ '\n') (hi : i ≤ s.length) :
    ((Row.fromStr s).insert i c).delete i = Row.fromStr s := by
  rcases Nat.lt_or_ge i s.length with hlt | hge
  · rcases hins : insertAux c i s 0 with ⟨res, n⟩
    have h1 : (Row.fromStr s).insert i c = ⟨res, n⟩ := by
      simp [Row.insert, Row.fromStr, if_neg (Nat.not_le.mpr hlt), hins]
    have hn : n = res.length := by
      have hs := insertAux_snd c i s 0
      rw [hins] at hs
      exact hs
    have hlen : res.length = s.length + 1 := by
      have hs := insertAux_fst_length c i s 0 (Nat.zero_le i) (by omega)
      rw [hins] at hs
      exact hs
    have hd := insert_delete_aux c i s 0 (Nat.zero_le i) (by omega)
    rw [hins] at hd
    simp only at hd
    rcases hdel : deleteAux i res 0 with ⟨res2, n2⟩
    rw [hdel] at hd
    simp only [Prod.mk.injEq] at hd
    rw [h1]
    simp [Row.delete, if_neg (show ¬ i ≥ n by omega), hdel, Row.fromStr, hd.1, hd.2]
  · have heq : i = s.length := Nat.le_antisymm hi hge
    subst heq
    have h1 : (Row.fromStr s).insert s.length c = ⟨s ++ [c], s.length + 1⟩ := by
      simp [Row.insert, Row.fromStr]
    rw [h1]
    have hd := deleteAux_snoc c s 0
    rw [Nat.zero_add] at hd
    rcases hdel : deleteAux s.length (s ++ [c]) 0 with ⟨res2, n2⟩
    rw [hdel] at hd
    simp only [Prod.mk.injEq] at hd
    simp [Row.delete, if_neg (show ¬ s.length ≥ s.length + 1 by omega), hdel,
      Row.fromStr, hd.1, hd.2]

/-- Closed witness for C5 at a concrete string, index and character. -/
theorem insert_delete_roundtrip_witness :
    ((Row.fromStr ['a', 'b']).insert 1 'x').delete 1 = Row.fromStr ['a', 'b'] :=
  insert_delete_roundtrip ['a', 'b'] 1 'x' (by decide) (by decide)

/-- Claim C6: for every row `r` satisfying the length invariant and every
split index `i ≤ len r`, `split` followed by `append` of the returned tail
onto the remaining head reconstructs a row equal to `r` (same grapheme
sequence and same cached length). -/
theorem split_append_roundtrip (r : Row) (i : Nat)
    (h : r.lenInvariant) (hi : i ≤ r.len) :
    ((r.split i).1).append ((r.split i).2) = r := by
  rcases hsp : splitAux i r.string 0 with ⟨⟨hd, hn⟩, ⟨tl, tn⟩⟩
  have hcat := splitAux_concat i r.string 0
  rw [hsp] at hcat
  simp only at hcat
  obtain ⟨st, ln⟩ := r
  simp only [Row.lenInvariant] at h
  simp only [Row.split, hsp, Row.append]
  simp only at hcat h
  simp [hcat, h]

/-- Closed witness for C6 at a concrete row and split index. -/
theorem split_append_roundtrip_witness :
    (((Row.fromStr ['a', 'b', 'c', 'd']).split 2).1).append
        (((Row.fromStr ['a', 'b', 'c', 'd']).split 2).2) = Row.fromStr ['a', 'b', 'c', 'd'] :=
  split_append_roundtrip (Row.fromStr ['a', 'b', 'c', 'd']) 2 (by decide) (by decide)

/-- Claim C10: for every document and non-line-break character `c`,
`Document::insert` at a Position whose row equals `row_count` appends a new
row holding exactly the single grapheme `c`, regardless of the Position's
column. -/
theorem insert_past_end_appends_singleton_row (d : Document) (p : Position) (c : Char)
    (hc : c ≠ '\n') (hy : p.y = d.row_count) :
    (d.insert p c).rows = d.rows ++ [Row.fromStr [c]] := by
  have hnotgt : ¬ p.y > d.row_count := by omega
  simp [Document.insert, Document.row_count, hnotgt, hc, hy, Row.insert, Row.default,
    Row.fromStr]

/-- Closed witness for C10 at a concrete document with a nonzero column. -/
theorem insert_past_end_appends_singleton_row_witness :
    (Document.insert ⟨[Row.fromStr ['a', 'b']], none, false⟩ ⟨7, 1⟩ 'z').rows
      = [Row.fromStr ['a', 'b']] ++ [Row.fromStr ['z']] :=
  insert_past_end_appends_singleton_row ⟨[Row.fromStr ['a', 'b']], none, false⟩ ⟨7, 1⟩ 'z'
    (by decide) (by decide)

theorem insert_newline_dirty (d : Document) (p : Position) :
    (d.insert_newline p).dirty = d.dirty := by
  unfold Document.insert_newline
  by_cases h1 : p.y > d.rows.length
  · rw [if_pos h1]
  · rw [if_neg h1]
    by_cases h2 : p.y = d.row_count
    · rw [if_pos h2]
    · rw [if_neg h2]

theorem insert_dirty (d : Document) (p : Position) (c : Char) (h : p.y ≤ d.row_count) :
    (d.insert p c).dirty = true := by
  unfold Document.insert
  rw [if_neg (show ¬ p.y > d.row_count by omega)]
  dsimp only [Document.row_count]
  by_cases hnl : c = '\n'
  · rw [if_pos hnl, insert_newline_dirty]
  · rw [if_neg hnl]
    by_cases he : p.y = d.rows.length
    · rw [if_pos he]
    · rw [if_neg he]

theorem delete_dirty (d : Document) (p : Position) (h : p.y < d.rows.length) :
    (d.delete p).dirty = true := by
  unfold Document.delete
  dsimp only
  rw [if_neg (show ¬ p.y ≥ d.rows.length by omega)]
  by_cases hm : p.x = ((d.rows.get? p.y).getD Row.default).len ∧ p.y + 1 < d.rows.length
  · rw [if_pos hm]
  · rw [if_neg hm]

/-- Claim C4 counterexample: on the one-row document `["ab"]`,
`delete(Position registered at column 2, row 0)` changes no content — the
column is past the last grapheme and there is no next row to merge — yet it
sets the dirty flag, so an out-of-range edit that changes nothing does not
leave the document unchanged. -/
theorem delete_noop_sets_dirty_counterexample :
    (Document.delete ⟨[Row.fromStr ['a', 'b']], none, false⟩ ⟨2, 0⟩).rows
        = [Row.fromStr ['a', 'b']] ∧
    (Document.delete ⟨[Row.fromStr ['a', 'b']], none, false⟩ ⟨2, 0⟩).dirty = true ∧
    (⟨[Row.fromStr ['a', 'b']], none, false⟩ : Document).dirty = false := by
  decide

/-- Claim C4 as amended: the dirty flag becomes true on every insert whose
row index passes the bound check (`row ≤ row_count`) and on every delete
whose row index is in range (`row < row_count`) — even when the edit changes
nothing, e.g. a delete whose column is out of range; an edit whose row index
is out of range leaves the document (dirty flag included) unchanged; and a
successful save clears the flag exactly when a file name is present. -/
theorem dirty_flag_amended (d : Document) (p : Position) (c : Char) :
    (p.y ≤ d.row_count → (d.insert p c).dirty = true) ∧
    (p.y < d.rows.length → (d.delete p).dirty = true) ∧
    (d.row_count < p.y → d.insert p c = d) ∧
    (d.rows.length ≤ p.y → d.delete p = d) ∧
    (d.file_name.isSome = true → (d.save).dirty = false) ∧
    (d.file_name = none → d.save = d) := by
  refine ⟨?_, ?_, ?_, ?_, ?_, ?_⟩
  · exact insert_dirty d p c
  · exact delete_dirty d p
  · intro hy
    simp [Document.insert, hy]
  · intro hy
    simp [Document.delete, hy]
  · intro hfn
    rcases hf : d.file_name with _ | nm
    · rw [hf] at hfn; simp at hfn
    · simp [Document.save, hf]
  · intro hfn
    simp [Document.save, hfn]

/-- Closed witness for the amended C4 at concrete documents. -/
theorem dirty_flag_amended_witness :
    (Document.insert ⟨[Row.fromStr ['a']], none, false⟩ ⟨0, 0⟩ 'z').dirty = true ∧
    (Document.delete ⟨[Row.fromStr ['a']], none, false⟩ ⟨0, 0⟩).dirty = true ∧
    Document.insert ⟨[Row.fromStr ['a']], none, false⟩ ⟨0, 2⟩ 'z'
      = ⟨[Row.fromStr ['a']], none, false⟩ ∧
    (Document.save ⟨[Row.fromStr ['a']], some ['f'], true⟩).dirty = false := by
  refine ⟨(dirty_flag_amended ⟨[Row.fromStr ['a']], none, false⟩ ⟨0, 0⟩ 'z').1 (by decide),
    (dirty_flag_amended ⟨[Row.fromStr ['a']], none, false⟩ ⟨0, 0⟩ 'z').2.1 (by decide),
    (dirty_flag_amended ⟨[Row.fromStr ['a']], none, false⟩ ⟨0, 2⟩ 'z').2.2.1 (by decide),
    (dirty_flag_amended ⟨[Row.fromStr ['a']], some ['f'], true⟩ ⟨0, 0⟩ 'z').2.2.2.2.1
      (by decide)⟩

/-- Claim C3: with the queue holding `[A, B]` and not yet drained,
`interrupt_and_play C` makes the next drain play `[C, A, B]` in that order,
and when a backing process was recorded as currently playing at interrupt
time, the termination request to it precedes every playback in the combined
event trace (in particular it precedes `C`). -/
theorem interrupt_then_drain_plays_front_first {α : Type} (m : SoundManager α) (A B C : α)
    (hq : m.queue = [A, B]) :
    (((m.interrupt_and_play C).2).speak_next_or_wait).1
        = [SoundEvent.played C, SoundEvent.played A, SoundEvent.played B] ∧
    (∀ pid, m.current_child_process = some pid →
      (m.interrupt_and_play C).1 ++ (((m.interrupt_and_play C).2).speak_next_or_wait).1
        = [SoundEvent.killed pid, SoundEvent.played C,
           SoundEvent.played A, SoundEvent.played B]) := by
  obtain ⟨q, cs, cp⟩ := m
  simp only at hq
  subst hq
  constructor
  · simp [SoundManager.interrupt_and_play, SoundManager.kill, SoundManager.play_next,
      SoundManager.speak_next_or_wait]
  · intro pid hp
    simp only at hp
    simp [SoundManager.interrupt_and_play, SoundManager.kill, SoundManager.play_next,
      SoundManager.speak_next_or_wait, hp]

/-- Closed witness for C3 at a concrete scheduler state with a live child
process. -/
theorem interrupt_then_drain_plays_front_first_witness :
    ((((⟨[10, 20], none, some 7⟩ : SoundManager Nat).interrupt_and_play 30).2).speak_next_or_wait).1
        = [SoundEvent.played 30, SoundEvent.played 10, SoundEvent.played 20] ∧
    ((⟨[10, 20], none, some 7⟩ : SoundManager Nat).interrupt_and_play 30).1 ++
        ((((⟨[10, 20], none, some 7⟩ : SoundManager Nat).interrupt_and_play 30).2).speak_next_or_wait).1
        = [SoundEvent.killed 7, SoundEvent.played 30,
           SoundEvent.played 10, SoundEvent.played 20] := by
  have h := interrupt_then_drain_plays_front_first
    (⟨[10, 20], none, some 7⟩ : SoundManager Nat) 10 20 30 rfl
  exact ⟨h.1, h.2 7 rfl⟩

theorem listReplace_of_not_hasSubstr (pat rep : List Char) :
    ∀ s : List Char, hasSubstr pat s = false → listReplace pat rep s = s := by
  intro s
  induction s with
  | nil => intro _; rw [listReplace]
  | cons c rest ih =>
    intro h
    simp only [hasSubstr, Bool.or_eq_false_iff] at h
    rw [listReplace]
    rw [dif_neg (fun hc => by simp [hc.2] at h)]
    rw [ih (by simpa using h.2)]

theorem foldl_replace_of_no_occ (s : List Char) :
    ∀ rules : List (List Char × List Char),
      (∀ pr ∈ rules, hasSubstr pr.1 s = false) →
      rules.foldl (fun acc pr => listReplace pr.1 (' ' :: (pr.2 ++ [' '])) acc) s = s := by
  intro rules
  induction rules with
  | nil => intro _; rfl
  | cons pr rest ih =>
    intro h
    have h1 : hasSubstr pr.1 s = false := h pr (List.mem_cons_self pr rest)
    simp only [List.foldl_cons, listReplace_of_not_hasSubstr pr.1 _ s h1]
    exact ih (fun q hq => h q (List.mem_cons_of_mem pr hq))

/-- Claim C8: on an input containing no occurrence of any literal of the
rule table, `string_to_speakable_tokens` returns the input unchanged. -/
theorem speakable_identity_without_literals (s : List Char)
    (h : ∀ pr ∈ replaceMap, hasSubstr pr.1 s = false) :
    string_to_speakable_tokens s = s :=
  foldl_replace_of_no_occ s replaceMap h

/-- Closed witness for C8 on a concrete literal-free string. -/
theorem speakable_identity_without_literals_witness :
    (∀ pr ∈ replaceMap, hasSubstr pr.1 ("hello world".toList) = false) ∧
    string_to_speakable_tokens ("hello world".toList) = "hello world".toList :=
  ⟨by decide, speakable_identity_without_literals ("hello world".toList) (by decide)⟩

/-- Claim C9 counterexample: with a configuration table whose `rate_wpm`
entry holds a string instead of an integer, `get_rate_wpm` hits the final
`unwrap()` on `None` — a panic, modelled as `none` — instead of falling back
to the default 300, so "never failing" is refuted. -/
theorem rate_wpm_invalid_panics_counterexample :
    get_rate_wpm (TomlValue.table [("rate_wpm".toList, TomlValue.str ("fast".toList))])
      = none := by
  rfl

/-- Claim C9 as amended: `get_rate_wpm` returns the configured integer when
the `rate_wpm` entry is an integer, falls back to the default 300 when the
entry is missing, and panics (`none` in this model) when the entry is
present but not an integer. -/
theorem rate_wpm_amended (config : TomlValue) :
    (∀ n, config.get ("rate_wpm".toList) = some (TomlValue.integer n) →
      get_rate_wpm config = some n) ∧
    (config.get ("rate_wpm".toList) = none → get_rate_wpm config = some 300) ∧
    (∀ v, config.get ("rate_wpm".toList) = some v → v.as_integer = none →
      get_rate_wpm config = none) := by
  refine ⟨?_, ?_, ?_⟩
  · intro n hn
    unfold get_rate_wpm
    rw [hn]
    rfl
  · intro hn
    unfold get_rate_wpm
    rw [hn]
    rfl
  · intro v hv hvi
    unfold get_rate_wpm
    rw [hv]
    exact hvi

/-- Closed witness for the amended C9 at concrete configurations. -/
theorem rate_wpm_amended_witness :
    get_rate_wpm (TomlValue.table [("rate_wpm".toList, TomlValue.integer 200)]) = some 200 ∧
    get_rate_wpm (TomlValue.table []) = some 300 :=
  ⟨(rate_wpm_amended (TomlValue.table [("rate_wpm".toList, TomlValue.integer 200)])).1 200 rfl,
   (rate_wpm_amended (TomlValue.table [])).2.1 rfl⟩

theorem takeRun_length :
    ∀ l : List Char, (takeRun l).1.length + (takeRun l).2.length = l.length := by
  intro l
  induction l with
  | nil => simp [takeRun]
  | cons c rest ih =>
    simp only [takeRun]
    by_cases h : c.isAlphanum
    · simp only [h, if_pos]
      simp only [List.length_cons]
      omega
    · simp [h]

theorem tokenize_lengths :
    ∀ s : List Char, ((tokenize s).map List.length).sum = s.length := by
  intro s
  induction s using tokenize.induct with
  | case1 => simp [tokenize]
  | case2 c rest hA ih =>
    rw [tokenize]
    simp only [if_pos hA, List.map_cons, List.sum_cons, List.length_cons]
    have := takeRun_length rest
    omega
  | case3 c rest hA ih =>
    rw [tokenize]
    rw [if_neg hA]
    simp only [List.map_cons, List.sum_cons, List.length_cons, List.length_nil]
    omega

theorem findTok_mem_of_lt :
    ∀ (ts : List (List Char)) (k i : Nat), k ≤ i → i < k + ((ts.map List.length).sum) →
      ∃ start tok, findTok i (withIndices k ts) = some tok ∧
        (start, tok) ∈ withIndices k ts ∧ start ≤ i ∧ i < start + tok.length := by
  intro ts
  induction ts with
  | nil => intro k i hk hlt; simp at hlt; omega
  | cons t rest ih =>
    intro k i hk hlt
    by_cases h : k + t.length > i
    · refine ⟨k, t, ?_, ?_, hk, by omega⟩
      · simp [withIndices, findTok, if_pos h]
      · simp [withIndices]
    · have hle : k + t.length ≤ i := by omega
      have hlt' : i < (k + t.length) + ((rest.map List.length).sum) := by
        simp at hlt
        omega
      obtain ⟨start, tok, h1, h2, h3, h4⟩ := ih (k + t.length) i hle hlt'
      refine ⟨start, tok, ?_, ?_, h3, h4⟩
      · simp [withIndices, findTok, if_neg h, h1]
      · simp [withIndices]
        right
        exact h2

theorem findTok_none_of_ge :
    ∀ (ts : List (List Char)) (k i : Nat), k + ((ts.map List.length).sum) ≤ i →
      findTok i (withIndices k ts) = none := by
  intro ts
  induction ts with
  | nil => intro k i _; rfl
  | cons t rest ih =>
    intro k i hge
    have h : ¬ k + t.length > i := by simp at hge; omega
    have h' : (k + t.length) + ((rest.map List.length).sum) ≤ i := by simp at hge; omega
    simp [withIndices, findTok, if_neg h, ih (k + t.length) i h']

/-- Claim C7: for every row and grapheme index `i`, `get_word_at` returns
the token of the word-boundary segmentation that overlaps index `i`
(its start ≤ i < start + token length), and `none` exactly when the row is
no longer than `i`. -/
theorem get_word_at_overlapping_token (r : Row) (i : Nat) :
    (i < r.string.length →
      ∃ start tok, r.get_word_at i = some tok ∧
        (start, tok) ∈ r.get_tokens_and_indices ∧ start ≤ i ∧ i < start + tok.length) ∧
    (r.string.length ≤ i → r.get_word_at i = none) := by
  constructor
  · intro hlt
    have h := findTok_mem_of_lt (tokenize r.string) 0 i (Nat.zero_le i)
      (by rw [tokenize_lengths]; omega)
    exact h
  · intro hge
    exact findTok_none_of_ge (tokenize r.string) 0 i (by rw [tokenize_lengths]; omega)

/-- Closed witness for C7 on the row "ab,c" at index 3 (inside the final
token) and at index 4 (past the end). -/
theorem get_word_at_overlapping_token_witness :
    (∃ start tok, (Row.fromStr ("ab,c".toList)).get_word_at 3 = some tok ∧
      (start, tok) ∈ (Row.fromStr ("ab,c".toList)).get_tokens_and_indices ∧
      start ≤ 3 ∧ 3 < start + tok.length) ∧
    (Row.fromStr ("ab,c".toList)).get_word_at 4 = none :=
  ⟨(get_word_at_overlapping_token (Row.fromStr ("ab,c".toList)) 3).1 (by decide),
   (get_word_at_overlapping_token (Row.fromStr ("ab,c".toList)) 4).2 (by decide)⟩

theorem strFindAux_sound (q : List Char) :
    ∀ (s : List Char) (k i : Nat), strFindAux q s k = some i →
      k ≤ i ∧ q.isPrefixOf (s.drop (i - k)) = true := by
  intro s
  induction s with
  | nil =>
    intro k i h
    simp only [strFindAux] at h
    by_cases hq : q = []
    · rw [if_pos hq] at h
      injection h with h
      subst h
      simp [hq, List.isPrefixOf]
    · rw [if_neg hq] at h
      exact absurd h (by simp)
  | cons c rest ih =>
    intro k i h
    simp only [strFindAux] at h
    by_cases hp : q.isPrefixOf (c :: rest) = true
    · rw [if_pos hp] at h
      injection h with h
      subst h
      simpa using hp
    · rw [if_neg hp] at h
      obtain ⟨hk, hpre⟩ := ih (k + 1) i h
      refine ⟨by omega, ?_⟩
      have : (c :: rest).drop (i - k) = rest.drop (i - k - 1) := by
        have h1 : i - k = (i - k - 1) + 1 := by omega
        rw [h1]
        rfl
      rw [this]
      have h2 : i - k - 1 = i - (k + 1) := by omega
      rw [h2]
      exact hpre

theorem strFind_sound (s q : List Char) (i : Nat) (h : strFind s q = some i) :
    q.isPrefixOf (s.drop i) = true := by
  have := strFindAux_sound q s 0 i h
  simpa using this.2

theorem strFindLastAux_sound (q : List Char) :
    ∀ (s : List Char) (k : Nat) (acc : Option Nat) (i : Nat),
      strFindLastAux q s k acc = some i →
      acc = some i ∨ (k ≤ i ∧ q.isPrefixOf (s.drop (i - k)) = true) := by
  intro s
  induction s with
  | nil =>
    intro k acc i h
    simp only [strFindLastAux] at h
    by_cases hq : q = []
    · rw [if_pos hq] at h
      injection h with h
      subst h
      right
      simp [hq, List.isPrefixOf]
    · rw [if_neg hq] at h
      exact Or.inl h
  | cons c rest ih =>
    intro k acc i h
    simp only [strFindLastAux] at h
    rcases ih (k + 1) _ i h with hacc | ⟨hk, hpre⟩
    · by_cases hp : q.isPrefixOf (c :: rest) = true
      · rw [if_pos hp] at hacc
        injection hacc with hacc
        subst hacc
        right
        refine ⟨Nat.le_refl k, ?_⟩
        simpa using hp
      · rw [if_neg hp] at hacc
        exact Or.inl hacc
    · right
      refine ⟨by omega, ?_⟩
      have hstep : (c :: rest).drop (i - k) = rest.drop (i - (k + 1)) := by
        have h1 : i - k = (i - (k + 1)) + 1 := by omega
        rw [h1]
        rfl
      rw [hstep]
      exact hpre

theorem strFindLast_sound (s q : List Char) (i : Nat) (h : strFindLast s q = some i) :
    q.isPrefixOf (s.drop i) = true := by
  rcases strFindLastAux_sound q s 0 none i h with hacc | ⟨_, hpre⟩
  · exact absurd hacc (by simp)
  · simpa using hpre

theorem strFindLastAux_le (q : List Char) :
    ∀ (s : List Char) (k : Nat) (acc : Option Nat) (i : Nat),
      (∀ j, acc = some j → j ≤ k + s.length) →
      strFindLastAux q s k acc = some i → i ≤ k + s.length := by
  intro s
  induction s with
  | nil =>
    intro k acc i hacc h
    simp only [strFindLastAux] at h
    by_cases hq : q = []
    · rw [if_pos hq] at h
      injection h with h
      omega
    · rw [if_neg hq] at h
      have := hacc i h
      simpa using this
  | cons c rest ih =>
    intro k acc i hacc h
    simp only [strFindLastAux] at h
    have hres := ih (k + 1) _ i ?_ h
    · simp only [List.length_cons]
      omega
    · intro j hj
      by_cases hp : q.isPrefixOf (c :: rest) = true
      · rw [if_pos hp] at hj
        injection hj with hj
        omega
      · rw [if_neg hp] at hj
        have := hacc j hj
        simp only [List.length_cons] at this ⊢
        omega

theorem strFindLast_le (s q : List Char) (i : Nat) (h : strFindLast s q = some i) :
    i ≤ s.length := by
  have := strFindLastAux_le q s 0 none i (by simp) h
  simpa using this

theorem findDir_forward_sound (r : Row) (q : List Char) (col x : Nat)
    (h : r.findDir q col .Forward = some x) :
    col ≤ x ∧ q.isPrefixOf (r.string.drop x) = true := by
  simp only [Row.findDir] at h
  rcases hs : strFind (r.string.drop col) q with _ | i
  · rw [hs] at h
    simp at h
  · rw [hs] at h
    simp only [Option.map_some'] at h
    injection h with h
    subst h
    have hpre := strFind_sound _ _ _ hs
    rw [List.drop_drop] at hpre
    exact ⟨by omega, by rwa [Nat.add_comm i col]⟩

theorem findDir_backward_sound (r : Row) (q : List Char) (col x : Nat)
    (h : r.findDir q col .Backward = some x) :
    q.isPrefixOf (r.string.drop x) = true ∧ x + q.length ≤ col := by
  simp only [Row.findDir] at h
  have hpre := strFindLast_sound _ _ _ h
  have hle := strFindLast_le _ _ _ h
  rw [List.length_take] at hle
  have hxcol : x ≤ col := le_trans hle (by simp)
  rw [List.drop_take] at hpre
  have hpre' : q <+: (r.string.drop x).take (col - x) := List.isPrefixOf_iff_prefix.mp hpre
  constructor
  · exact List.isPrefixOf_iff_prefix.mpr (hpre'.trans (List.take_prefix _ _))
  · have hql := hpre'.length_le
    rw [List.length_take] at hql
    have : q.length ≤ col - x := le_trans hql (by simp)
    omega

theorem findForwardAux_sound (q : List Char) :
    ∀ (rows : List Row) (y col : Nat) (pos : Position),
      findForwardAux q rows y col = some pos →
      y ≤ pos.y ∧ ∃ r, rows.get? (pos.y - y) = some r ∧
        q.isPrefixOf (r.string.drop pos.x) = true ∧ (pos.y = y → col ≤ pos.x) := by
  intro rows
  induction rows with
  | nil => intro y col pos h; exact absurd h (by simp [findForwardAux])
  | cons r rest ih =>
    intro y col pos h
    simp only [findForwardAux] at h
    rcases hf : r.findDir q col .Forward with _ | x
    · rw [hf] at h
      obtain ⟨hy, r', hget, hpre, hcol⟩ := ih (y + 1) 0 pos h
      refine ⟨by omega, r', ?_, hpre, by omega⟩
      have hidx : pos.y - y = (pos.y - (y + 1)) + 1 := by omega
      rw [hidx]
      simpa using hget
    · rw [hf] at h
      injection h with h
      subst h
      obtain ⟨hcol, hpre⟩ := findDir_forward_sound r q col x hf
      exact ⟨Nat.le_refl y, r, by simp, hpre, fun _ => hcol⟩

theorem findBackwardAux_sound (rows : List Row) (q : List Char) :
    ∀ (y col : Nat) (pos : Position),
      findBackwardAux rows q y col = some pos →
      pos.y ≤ y ∧ ∃ r, rows.get? pos.y = some r ∧
        q.isPrefixOf (r.string.drop pos.x) = true ∧
        (pos.y = y → pos.x + q.length ≤ col) := by
  intro y
  induction y with
  | zero =>
    intro col pos h
    rw [findBackwardAux] at h
    rcases hg : rows.get? 0 with _ | r
    · rw [hg] at h
      simp at h
    · rw [hg] at h
      rcases hf : r.findDir q col .Backward with _ | x
      · simp [hf] at h
      · simp only [hf] at h
        injection h with h
        subst h
        obtain ⟨hpre, hcol⟩ := findDir_backward_sound r q col x hf
        exact ⟨Nat.le_refl 0, r, hg, hpre, fun _ => hcol⟩
  | succ y' ih =>
    intro col pos h
    rw [findBackwardAux] at h
    rcases hg : rows.get? (y' + 1) with _ | r
    · rw [hg] at h
      simp at h
    · rw [hg] at h
      rcases hf : r.findDir q col .Backward with _ | x
      · simp only [hf] at h
        obtain ⟨hy, r', hget, hpre, hcol⟩ := ih _ pos h
        exact ⟨by omega, r', hget, hpre, fun he => absurd he (by omega)⟩
      · simp only [hf] at h
        injection h with h
        subst h
        obtain ⟨hpre, hcol⟩ := findDir_backward_sound r q col x hf
        exact ⟨Nat.le_refl _, r, hg, hpre, fun _ => hcol⟩

/-- Claim C1 (spec-modelled): the directional `find` scans rows linearly
from the given Position in the requested direction; any returned Position
addresses an existing row that contains the query at the returned
grapheme-cluster offset, on the forward leg at or after the starting row
(with the column constraint on the starting row) and on the backward leg at
or before it (the starting row constrained to its first `from.x`
graphemes); and on rows ["ab", "cd"], `find "cd"` from Position (0,0)
forward returns Position (0,1). -/
theorem find_spec_modelled_correct :
    (Document.findDir ⟨[Row.fromStr ("ab".toList), Row.fromStr ("cd".toList)], none, false⟩
        ("cd".toList) ⟨0, 0⟩ .Forward = some ⟨0, 1⟩) ∧
    (∀ (d : Document) (q : List Char) (p pos : Position),
      d.findDir q p .Forward = some pos →
      p.y ≤ pos.y ∧ ∃ r, d.rows.get? pos.y = some r ∧
        q.isPrefixOf (r.string.drop pos.x) = true ∧ (pos.y = p.y → p.x ≤ pos.x)) ∧
    (∀ (d : Document) (q : List Char) (p pos : Position),
      d.findDir q p .Backward = some pos →
      pos.y ≤ p.y ∧ ∃ r, d.rows.get? pos.y = some r ∧
        q.isPrefixOf (r.string.drop pos.x) = true ∧
        (pos.y = p.y → pos.x + q.length ≤ p.x)) := by
  refine ⟨by decide, ?_, ?_⟩
  · intro d q p pos h
    simp only [Document.findDir] at h
    by_cases hy : p.y ≥ d.rows.length
    · rw [if_pos hy] at h
      exact absurd h (by simp)
    · rw [if_neg hy] at h
      obtain ⟨hge, r, hget, hpre, hcol⟩ := findForwardAux_sound q (d.rows.drop p.y) p.y p.x pos h
      refine ⟨hge, r, ?_, hpre, hcol⟩
      rw [List.get?_drop] at hget
      rwa [Nat.add_sub_cancel' hge] at hget
  · intro d q p pos h
    simp only [Document.findDir] at h
    by_cases hy : p.y ≥ d.rows.length
    · rw [if_pos hy] at h
      exact absurd h (by simp)
    · rw [if_neg hy] at h
      exact findBackwardAux_sound d.rows q p.y p.x pos h

/-- Closed witness for C1: the forward and backward soundness conjuncts
applied to concrete searches over the rows ["ab", "cd"]. -/
theorem find_spec_modelled_correct_witness :
    (∃ r, (⟨[Row.fromStr ("ab".toList), Row.fromStr ("cd".toList)], none, false⟩ :
        Document).rows.get? 1 = some r ∧
      ("cd".toList).isPrefixOf (r.string.drop 0) = true ∧
      ((1 : Nat) = 0 → (0 : Nat) ≤ 0)) ∧
    (∃ r, (⟨[Row.fromStr ("ab".toList), Row.fromStr ("cd".toList)], none, false⟩ :
        Document).rows.get? 0 = some r ∧
      ("ab".toList).isPrefixOf (r.string.drop 0) = true ∧
      ((0 : Nat) = 1 → (0 : Nat) + ("ab".toList).length ≤ 1)) := by
  have hf := find_spec_modelled_correct.2.1
    ⟨[Row.fromStr ("ab".toList), Row.fromStr ("cd".toList)], none, false⟩
    ("cd".toList) ⟨0, 0⟩ ⟨0, 1⟩ (by decide)
  have hb := find_spec_modelled_correct.2.2
    ⟨[Row.fromStr ("ab".toList), Row.fromStr ("cd".toList)], none, false⟩
    ("ab".toList) ⟨1, 1⟩ ⟨0, 0⟩ (by decide)
  exact ⟨hf.2, hb.2⟩

end Clack
